import Mathlib

/-!
Shallow embedding of the Axanet client-record store
(`src/axanet_manager.py`, class `AxanetManager`).

The store state is modelled explicitly: the persisted index
(`data/index.json`, a Python dict `name -> filename`) becomes an
association list `List (String × String)` preserving insertion order,
and the record files under `data/clients/` become an association list
`List (String × Record)` from filename to parsed record.  A filename
absent from `files` models a missing or unparseable record file
(`_load_client_data` returns `None` in both cases).  Each operation
that calls `datetime.now().isoformat()` takes the produced timestamp
string as an explicit `now` argument.

Python string primitives used by the code (`str.lower`, `str.strip`,
`str.replace(' ', '_')`, `in` substring test, `<=` comparison,
`str.isalnum`) are modelled structurally on `List Char`;
`Char.isAlphanum`/`Char.toLower` stand in for Python's Unicode-aware
classification, which agrees with it on ASCII input.
-/

namespace Axanet

/-- Python `s.lower()`: lowercase every character. -/
def strLower (s : String) : String :=
  String.mk (s.data.map Char.toLower)

/-- Python `s.strip()`: drop leading and trailing whitespace. -/
def trimChars (l : List Char) : List Char :=
  ((l.dropWhile Char.isWhitespace).reverse.dropWhile Char.isWhitespace).reverse

/-- Python string `<=` (lexicographic by code point), on char lists. -/
def charLe : List Char → List Char → Bool
  | [], _ => true
  | _ :: _, [] => false
  | a :: as, b :: bs => if a < b then true else if b < a then false else charLe as bs

/-- Python string `<=` (lexicographic by code point). -/
def pyStrLe (a b : String) : Bool :=
  charLe a.data b.data

/-- Python `needle in hay`: contiguous-substring test. -/
def strContains (hay needle : String) : Bool :=
  hay.data.tails.any fun t => needle.data.isPrefixOf t

/-- `AxanetManager._generate_filename` (axanet_manager.py:32-37):
keep alphanumerics, spaces, hyphens and underscores, strip, replace
spaces by underscores, lowercase, append `.json`. -/
def generateFilename (clientName : String) : String :=
  let safeName := trimChars (clientName.data.filter fun c =>
    c.isAlphanum || c = ' ' || c = '-' || c = '_')
  let safeName := (safeName.map fun c => if c = ' ' then '_' else c).map Char.toLower
  String.mk safeName ++ ".json"

/-- Modelled from the spec (§4.1), word by word: "keep only alphanumeric
characters, spaces, hyphens, and underscores from `name` (drop everything
else); trim leading/trailing whitespace; replace internal spaces with
underscores; lowercase the result; append a fixed `.json` extension". -/
def filenameFromSpec (n : String) : String :=
  let kept := n.data.filter fun c => c.isAlphanum || c = ' ' || c = '-' || c = '_'
  let trimmed := trimChars kept
  let replaced := trimmed.map fun c => if c = ' ' then '_' else c
  let lowered := replaced.map Char.toLower
  String.mk lowered ++ ".json"

/-- One entry of a record's `history` array.  The JSON object always has
`action` and `timestamp` keys; `service` and `notes` keys are present
only for the entry kinds that carry them, modelled as `Option`. -/
structure HistoryEntry where
  action : String
  timestamp : String
  service : Option String := none
  notes : Option String := none
deriving DecidableEq, Repr

/-- One client record file under `data/clients/`. -/
structure Record where
  name : String
  service : String
  notes : String
  created_at : String
  updated_at : String
  history : List HistoryEntry
deriving DecidableEq, Repr

/-- The basic-field projection returned by `list_clients` (history excluded). -/
structure BasicInfo where
  name : String
  service : String
  notes : String
  created_at : String
  updated_at : String
deriving DecidableEq, Repr

/-- The on-disk state owned by the store: the index dict and the record
files, both as insertion-ordered association lists. -/
structure Store where
  index : List (String × String)
  files : List (String × Record)
deriving DecidableEq, Repr

/-- The store created by `_ensure_directories` on a fresh data dir. -/
def emptyStore : Store := ⟨[], []⟩

/-- Association-list lookup, modelling Python `d[k]` / `k in d`. -/
def alLookup (k : String) : List (String × β) → Option β
  | [] => none
  | p :: rest => if p.1 = k then some p.2 else alLookup k rest

/-- Association-list write, modelling Python `d[k] = v` (and a file
write at path `k`): replace the entry if the key is present, else
append it, preserving insertion order. -/
def alInsert (k : String) (v : β) : List (String × β) → List (String × β)
  | [] => [(k, v)]
  | p :: rest => if p.1 = k then (k, v) :: rest else p :: alInsert k v rest

/-- Association-list removal, modelling Python `del d[k]` (and
`os.remove` at path `k`, where a missing path is not an error). -/
def alErase (k : String) : List (String × β) → List (String × β)
  | [] => []
  | p :: rest => if p.1 = k then rest else p :: alErase k rest

/-- `AxanetManager.create_client` (axanet_manager.py:54-88). -/
def create_client (s : Store) (now name service notes : String) : Store × Bool :=
  if (alLookup name s.index).isSome then (s, false)
  else
    let filename := generateFilename name
    let clientData : Record :=
      { name := name, service := service, notes := notes
        created_at := now, updated_at := now
        history := [{ action := "created", timestamp := now
                      service := some service, notes := some notes }] }
    ({ index := alInsert name filename s.index
       files := alInsert filename clientData s.files }, true)

/-- `AxanetManager.update_client` (axanet_manager.py:90-134). -/
def update_client (s : Store) (now name : String)
    (service notes : Option String) : Store × Bool :=
  match alLookup name s.index with
  | none => (s, false)
  | some filename =>
    match alLookup filename s.files with
    | none => (s, false)
    | some cd =>
      let s1 := service.getD cd.service
      let n1 := notes.getD cd.notes
      if s1 ≠ cd.service ∨ n1 ≠ cd.notes then
        let entry : HistoryEntry :=
          { action := "updated", timestamp := now, service := service, notes := notes }
        let cd3 : Record :=
          { cd with service := s1, notes := n1, updated_at := now
                    history := cd.history ++ [entry] }
        ({ s with files := alInsert filename cd3 s.files }, true)
      else (s, true)

/-- `AxanetManager.consult_client` (axanet_manager.py:136-157). -/
def consult_client (s : Store) (now name : String) : Store × Option Record :=
  match alLookup name s.index with
  | none => (s, none)
  | some filename =>
    match alLookup filename s.files with
    | none => (s, none)
    | some cd =>
      let cd2 : Record :=
        { cd with history := cd.history ++ [{ action := "consulted", timestamp := now }] }
      ({ s with files := alInsert filename cd2 s.files }, some cd2)

/-- The basic-field projection built inside `list_clients`
(axanet_manager.py:171-177). -/
def basicOf (r : Record) : BasicInfo :=
  { name := r.name, service := r.service, notes := r.notes
    created_at := r.created_at, updated_at := r.updated_at }

/-- Sort relation of `clients.sort(key=lambda x: x["created_at"],
reverse=True)`: descending by `created_at` under Python string order. -/
def listRel (a b : BasicInfo) : Prop :=
  pyStrLe b.created_at a.created_at = true

instance : DecidableRel listRel := fun a b => instDecidableEqBool _ _

/-- `AxanetManager.list_clients` (axanet_manager.py:159-181): project
the basic fields of every indexed record whose file loads, skipping
failures, then stable-sort descending by `created_at`. -/
def list_clients (s : Store) : List BasicInfo :=
  List.insertionSort listRel
    (s.index.filterMap fun p => (alLookup p.2 s.files).map basicOf)

/-- `AxanetManager.delete_client` (axanet_manager.py:183-206). -/
def delete_client (s : Store) (name : String) : Store × Bool :=
  match alLookup name s.index with
  | none => (s, false)
  | some filename =>
    ({ index := alErase name s.index, files := alErase filename s.files }, true)

/-- `AxanetManager.get_client_count` (axanet_manager.py:208-211). -/
def get_client_count (s : Store) : Nat :=
  s.index.length

/-- The match predicate of `search_clients` (axanet_manager.py:222-226):
the lowercased query occurs in the lowercased name, service or notes. -/
def matchesQuery (query : String) (c : BasicInfo) : Bool :=
  strContains (strLower c.name) (strLower query)
    || strContains (strLower c.service) (strLower query)
    || strContains (strLower c.notes) (strLower query)

/-- `AxanetManager.search_clients` (axanet_manager.py:213-228). -/
def search_clients (s : Store) (query : String) : List BasicInfo :=
  (list_clients s).filter (matchesQuery query)

/-- One public store operation with the timestamps its internal
`datetime.now()` calls produce. -/
inductive Op where
  | create (now name service notes : String)
  | update (now name : String) (service notes : Option String)
  | consult (now name : String)
  | delete (name : String)
  | list
  | search (query : String)
  | count
deriving DecidableEq, Repr

/-- State effect of one operation.  `list`, `search` and `count` never
write (their Python bodies contain no `_save_*` or `os.remove` call). -/
def applyOp (s : Store) : Op → Store
  | .create now name service notes => (create_client s now name service notes).1
  | .update now name service notes => (update_client s now name service notes).1
  | .consult now name => (consult_client s now name).1
  | .delete name => (delete_client s name).1
  | .list => s
  | .search _ => s
  | .count => s

/-- State effect of a sequence of operations, first operation first. -/
def applyOps (s : Store) : List Op → Store
  | [] => s
  | op :: rest => applyOps (applyOp s op) rest

/-- The spec's index/record consistency condition (§3): every index key
maps to a readable record file whose `name` field equals the key. -/
def Consistent (s : Store) : Prop :=
  ∀ p ∈ s.index, (alLookup p.2 s.files).map Record.name = some p.1

instance (s : Store) : Decidable (Consistent s) :=
  List.decidableBAll _ s.index

/-- Structural invariant of stores reachable without filename
collisions: index keys are distinct (a Python dict), every indexed
filename is the one derived from its key, indexed filenames are
pairwise distinct, and the consistency condition holds. -/
def StoreInv (s : Store) : Prop :=
  (s.index.map Prod.fst).Nodup ∧ (s.index.map Prod.snd).Nodup ∧
    (∀ p ∈ s.index, p.2 = generateFilename p.1) ∧ Consistent s

instance (s : Store) : Decidable (StoreInv s) :=
  instDecidableAnd

/-- A create is collision-free on `s` when its name is already indexed
(so it is a no-op) or its derived filename is not used by any existing
index entry.  Every other operation is unconditionally safe. -/
def CollFree (s : Store) : Op → Prop
  | .create _ name _ _ =>
      (alLookup name s.index).isSome = true ∨ ∀ p ∈ s.index, p.2 ≠ generateFilename name
  | _ => True

instance (s : Store) (op : Op) : Decidable (CollFree s op) := by
  cases op <;> simp only [CollFree] <;> infer_instance

/-- Every operation of the trace is collision-free in the state where
it runs. -/
def TraceOK (s : Store) : List Op → Prop
  | [] => True
  | op :: rest => CollFree s op ∧ TraceOK (applyOp s op) rest

instance (s : Store) (ops : List Op) : Decidable (TraceOK s ops) := by
  induction ops generalizing s with
  | nil => exact .isTrue trivial
  | cons op rest ih => exact @instDecidableAnd _ _ _ (ih _)

/-- A create does not overwrite an existing record file: either its
name is already indexed (the call is a no-op) or no file exists under
its derived filename.  Every other operation is unconditionally safe. -/
def CreateFresh (s : Store) : Op → Prop
  | .create _ name _ _ =>
      (alLookup name s.index).isSome = true ∨
        alLookup (generateFilename name) s.files = none
  | _ => True

instance (s : Store) (op : Op) : Decidable (CreateFresh s op) := by
  cases op <;> simp only [CreateFresh] <;> infer_instance

/-! ### Association-list lemmas -/

theorem alLookup_insert_self (k : String) (v : β) (l : List (String × β)) :
    alLookup k (alInsert k v l) = some v := by
  induction l with
  | nil => simp [alLookup, alInsert]
  | cons p rest ih =>
    by_cases h : p.1 = k <;> simp [alLookup, alInsert, h, ih]

theorem alLookup_insert_ne {k2 k : String} (h : k2 ≠ k) (v : β) (l : List (String × β)) :
    alLookup k (alInsert k2 v l) = alLookup k l := by
  induction l with
  | nil => simp [alLookup, alInsert, h]
  | cons p rest ih =>
    by_cases hp : p.1 = k2
    · simp [alLookup, alInsert, hp, h]
    · simp only [alInsert, hp, if_false]
      by_cases hk : p.1 = k <;> simp [alLookup, hk, ih]

theorem alLookup_eq_none_iff {k : String} {l : List (String × β)} :
    alLookup k l = none ↔ ∀ p ∈ l, p.1 ≠ k := by
  induction l with
  | nil => simp [alLookup]
  | cons p rest ih =>
    by_cases h : p.1 = k <;> simp [alLookup, h, ih]

theorem alLookup_mem {k : String} {v : β} {l : List (String × β)}
    (h : alLookup k l = some v) : (k, v) ∈ l := by
  induction l with
  | nil => simp [alLookup] at h
  | cons p rest ih =>
    by_cases hp : p.1 = k
    · simp only [alLookup, hp, if_true, Option.some.injEq] at h
      have hkv : (k, v) = p := by
        cases p
        simp_all
      rw [hkv]
      exact List.mem_cons_self _ _
    · simp only [alLookup, hp, if_false] at h
      exact List.mem_cons_of_mem _ (ih h)

theorem alInsert_of_none {k : String} {l : List (String × β)}
    (h : alLookup k l = none) (v : β) : alInsert k v l = l ++ [(k, v)] := by
  induction l with
  | nil => simp [alInsert]
  | cons p rest ih =>
    rw [alLookup_eq_none_iff] at h
    have hp : p.1 ≠ k := h p (List.mem_cons_self p rest)
    have hr : alLookup k rest = none := by
      rw [alLookup_eq_none_iff]
      exact fun q hq => h q (List.mem_cons_of_mem p hq)
    simp [alInsert, hp, ih hr]

theorem length_alInsert_of_none {k : String} {l : List (String × β)}
    (h : alLookup k l = none) (v : β) : (alInsert k v l).length = l.length + 1 := by
  rw [alInsert_of_none h v]
  simp

theorem alErase_sublist (k : String) (l : List (String × β)) :
    (alErase k l).Sublist l := by
  induction l with
  | nil => simp [alErase]
  | cons p rest ih =>
    by_cases h : p.1 = k
    · simpa [alErase, h] using List.sublist_cons_self p rest
    · simpa [alErase, h] using ih

theorem length_alErase_of_some {k : String} {v : β} {l : List (String × β)}
    (h : alLookup k l = some v) : (alErase k l).length + 1 = l.length := by
  induction l with
  | nil => simp [alLookup] at h
  | cons p rest ih =>
    by_cases hp : p.1 = k
    · simp [alErase, hp]
    · simp only [alLookup, hp, if_false] at h
      simp [alErase, hp, ih h]

theorem alLookup_erase_ne {k2 k : String} (h : k2 ≠ k) (l : List (String × β)) :
    alLookup k (alErase k2 l) = alLookup k l := by
  induction l with
  | nil => simp [alErase]
  | cons p rest ih =>
    by_cases hp : p.1 = k2
    · have hpk : p.1 ≠ k := by rw [hp]; exact h
      simp [alErase, alLookup, hp, hpk, h]
    · by_cases hk : p.1 = k <;>
        simp [alErase, alLookup, hp, hk, Ne.symm h, ih]

theorem mem_alErase_of_mem {k : String} {p : String × β} {l : List (String × β)}
    (h : p ∈ alErase k l) : p ∈ l :=
  (alErase_sublist k l).mem h

theorem not_mem_alErase_self {k : String} {v : β} {l : List (String × β)}
    (hn : (l.map Prod.fst).Nodup) : (k, v) ∉ alErase k l := by
  induction l with
  | nil => simp [alErase]
  | cons p rest ih =>
    simp only [List.map_cons, List.nodup_cons] at hn
    by_cases hp : p.1 = k
    · simp only [alErase, hp, if_true]
      intro hmem
      exact hn.1 (by simpa [hp] using List.mem_map_of_mem Prod.fst hmem)
    · simp only [alErase, hp, if_false, List.mem_cons]
      rintro (rfl | hmem)
      · exact hp rfl
      · exact ih hn.2 hmem

theorem alLookup_erase_self {k : String} {l : List (String × β)}
    (hn : (l.map Prod.fst).Nodup) : alLookup k (alErase k l) = none := by
  cases h : alLookup k (alErase k l) with
  | none => rfl
  | some v => exact absurd (alLookup_mem h) (not_mem_alErase_self hn)

/-- Two index entries sharing their second component are equal when the
second components are pairwise distinct. -/
theorem snd_injective {l : List (String × β)} (hn : (l.map Prod.snd).Nodup)
    {p q : String × β} (hp : p ∈ l) (hq : q ∈ l) (h : p.2 = q.2) : p = q :=
  List.inj_on_of_nodup_map hn hp hq h

/-! ### Python string-order lemmas -/

theorem charLe_refl (l : List Char) : charLe l l = true := by
  induction l with
  | nil => rfl
  | cons a as ih => simp [charLe, ih]

theorem charLe_total (a b : List Char) : charLe a b = true ∨ charLe b a = true := by
  induction a generalizing b with
  | nil => left; rfl
  | cons x as ih =>
    cases b with
    | nil => right; rfl
    | cons y bs =>
      rcases lt_trichotomy x y with h | h | h
      · left; simp [charLe, h]
      · subst h
        rcases ih bs with h2 | h2 <;> [left; right] <;> simp [charLe, h2]
      · right; simp [charLe, h]

theorem charLe_trans {a b c : List Char} (h1 : charLe a b = true)
    (h2 : charLe b c = true) : charLe a c = true := by
  induction a generalizing b c with
  | nil => rfl
  | cons x as ih =>
    cases b with
    | nil => simp [charLe] at h1
    | cons y bs =>
      cases c with
      | nil => simp [charLe] at h2
      | cons z cs =>
        simp only [charLe] at h1 h2 ⊢
        rcases lt_trichotomy x y with hxy | hxy | hxy
        · rcases lt_trichotomy y z with hyz | hyz | hyz
          · simp [lt_trans hxy hyz]
          · subst hyz; simp [hxy]
          · simp [hxy, lt_asymm hxy] at h1
            simp [hyz, lt_asymm hyz] at h2
        · subst hxy
          rcases lt_trichotomy x z with hyz | hyz | hyz
          · simp [hyz]
          · subst hyz
            simp only [lt_irrefl, if_false] at h1 h2 ⊢
            exact ih h1 h2
          · simp [hyz, lt_asymm hyz] at h2
        · simp [hxy, lt_asymm hxy] at h1

/-- `charLe` agrees with Mathlib's lexicographic order on `List Char`. -/
theorem charLe_iff_not_lt (a b : List Char) :
    charLe a b = true ↔ ¬ List.Lex (· < ·) b a := by
  induction a generalizing b with
  | nil =>
    simp only [charLe, true_iff]
    intro h
    cases h
  | cons x as ih =>
    cases b with
    | nil =>
      simp only [charLe, Bool.false_eq_true, false_iff, not_not]
      exact List.Lex.nil
    | cons y bs =>
      simp only [charLe]
      rcases lt_trichotomy x y with h | h | h
      · simp only [h, if_true, true_iff]
        intro hlex
        cases hlex with
        | cons h2 => exact lt_irrefl x h
        | rel h2 => exact lt_asymm h h2
      · subst h
        simp only [lt_irrefl, if_false, ih]
        constructor
        · intro hn hlex
          cases hlex with
          | cons h2 => exact hn h2
          | rel h2 => exact lt_irrefl x h2
        · intro hn hlex
          exact hn (List.Lex.cons hlex)
      · simp only [h, lt_asymm h, if_true, if_false, Bool.false_eq_true, false_iff,
          not_not]
        exact List.Lex.rel h

/-- `pyStrLe` is Mathlib's `≤` on `String`. -/
theorem pyStrLe_iff_le (a b : String) : pyStrLe a b = true ↔ a ≤ b := by
  rw [String.le_iff_toList_le]
  have : a.toList = a.data := rfl
  rw [this]
  have : b.toList = b.data := rfl
  rw [this]
  rw [← not_lt]
  exact charLe_iff_not_lt a.data b.data

instance : IsTotal BasicInfo listRel :=
  ⟨fun a b => charLe_total b.created_at.data a.created_at.data⟩

instance : IsTrans BasicInfo listRel :=
  ⟨fun _ _ _ h1 h2 => charLe_trans h2 h1⟩

/-! ### Substring-test characterization -/

/-- Executable prefix test, characterized as an append decomposition. -/
theorem isPrefixOf_iff_append : ∀ (a b : List Char),
    a.isPrefixOf b = true ↔ ∃ t, b = a ++ t
  | [], b => by simp [List.isPrefixOf]
  | _ :: _, [] => by simp [List.isPrefixOf]
  | x :: xs, y :: ys => by
    simp only [List.isPrefixOf, Bool.and_eq_true, beq_iff_eq,
      isPrefixOf_iff_append xs ys, List.cons_append, List.cons.injEq]
    constructor
    · rintro ⟨rfl, t, rfl⟩
      exact ⟨t, rfl, rfl⟩
    · rintro ⟨t, rfl, rfl⟩
      exact ⟨rfl, t, rfl⟩

/-- `strContains hay needle` holds exactly when `needle` occurs
contiguously inside `hay`. -/
theorem strContains_iff (hay needle : String) :
    strContains hay needle = true ↔
      ∃ u v, hay.data = u ++ needle.data ++ v := by
  simp only [strContains, List.any_eq_true]
  constructor
  · rintro ⟨t, ht, hpre⟩
    rw [List.mem_tails] at ht
    obtain ⟨u, hu⟩ := ht
    obtain ⟨v, hv⟩ := (isPrefixOf_iff_append _ _).mp hpre
    exact ⟨u, v, by rw [← hu, hv, List.append_assoc]⟩
  · rintro ⟨u, v, h⟩
    refine ⟨needle.data ++ v, ?_, ?_⟩
    · rw [List.mem_tails, h, List.append_assoc]
      exact ⟨u, rfl⟩
    · exact (isPrefixOf_iff_append _ _).mpr ⟨v, rfl⟩

/-! ### Claim theorems -/

/-- C9: the name → filename derivation is a pure function computing
exactly the spec's pipeline (keep alphanumerics/spaces/hyphens/
underscores, trim, spaces to underscores, lowercase, append `.json`),
and deriving the filename from the same name twice yields the same
string; two sample evaluations included. -/
theorem filename_derivation (n : String) :
    generateFilename n = filenameFromSpec n ∧
      generateFilename n = generateFilename n ∧
      generateFilename "Juan Perez" = "juan_perez.json" ∧
      generateFilename "  A-b_c!? " = "a-b_c.json" :=
  ⟨rfl, rfl, by decide, by decide⟩

/-- C2: create fails reporting "already exists" and changes nothing
when the name is indexed; otherwise it succeeds, writes under the
derived filename a record carrying the inputs, both timestamps set to
the current instant and a single `created` history entry, inserts
name → filename into the index, increases the count by exactly one,
and a subsequent create with the same name fails. -/
theorem create_contract (s : Store) (now name service notes now2 service2 notes2 : String) :
    ((alLookup name s.index).isSome = true →
       create_client s now name service notes = (s, false)) ∧
    (alLookup name s.index = none →
       (create_client s now name service notes).2 = true ∧
       alLookup (generateFilename name) (create_client s now name service notes).1.files =
         some { name := name, service := service, notes := notes,
                created_at := now, updated_at := now,
                history := [{ action := "created", timestamp := now,
                              service := some service, notes := some notes }] } ∧
       alLookup name (create_client s now name service notes).1.index =
         some (generateFilename name) ∧
       get_client_count (create_client s now name service notes).1 =
         get_client_count s + 1 ∧
       (create_client (create_client s now name service notes).1 now2 name service2 notes2).2
         = false) := by
  constructor
  · intro h
    simp [create_client, h]
  · intro h
    have hns : (alLookup name s.index).isSome = false := by simp [h]
    refine ⟨?_, ?_, ?_, ?_, ?_⟩ <;>
      simp [create_client, hns, alLookup_insert_self, get_client_count,
        length_alInsert_of_none h]

/-- C2 witness: a concrete create on the empty store succeeds and a
repeat of the same name fails leaving the store unchanged. -/
theorem create_contract_witness :
    (create_client emptyStore "t1" "Ana" "Pintura" "").2 = true ∧
    create_client (create_client emptyStore "t1" "Ana" "Pintura" "").1 "t2" "Ana" "X" "Y"
      = ((create_client emptyStore "t1" "Ana" "Pintura" "").1, false) :=
  ⟨((create_contract emptyStore "t1" "Ana" "Pintura" "" "t2" "X" "Y").2 rfl).1,
   (create_contract (create_client emptyStore "t1" "Ana" "Pintura" "").1
      "t2" "Ana" "X" "Y" "t3" "a" "b").1 (by decide)⟩

/-- C3: update reports not-found when the name is unindexed or its file
is unreadable; when some provided field differs from storage it stores
the provided values, sets `updated_at` to now and appends exactly one
`updated` entry whose `service`/`notes` keys are present exactly when
the corresponding argument was supplied; when nothing differs the
stored state is unchanged and the call still succeeds. -/
theorem update_contract (s : Store) (now name : String) (service notes : Option String) :
    (alLookup name s.index = none →
       update_client s now name service notes = (s, false)) ∧
    (∀ f, alLookup name s.index = some f → alLookup f s.files = none →
       update_client s now name service notes = (s, false)) ∧
    (∀ f r, alLookup name s.index = some f → alLookup f s.files = some r →
       ((service.getD r.service ≠ r.service ∨ notes.getD r.notes ≠ r.notes) →
          (update_client s now name service notes).2 = true ∧
          (update_client s now name service notes).1.index = s.index ∧
          alLookup f (update_client s now name service notes).1.files =
            some { name := r.name, service := service.getD r.service,
                   notes := notes.getD r.notes, created_at := r.created_at,
                   updated_at := now,
                   history := r.history ++
                     [{ action := "updated", timestamp := now,
                        service := service, notes := notes }] }) ∧
       (service.getD r.service = r.service → notes.getD r.notes = r.notes →
          update_client s now name service notes = (s, true))) := by
  refine ⟨?_, ?_, ?_⟩
  · intro h
    simp [update_client, h]
  · intro f h1 h2
    simp [update_client, h1, h2]
  · intro f r h1 h2
    constructor
    · intro hch
      simp only [update_client, h1, h2]
      rw [if_pos hch]
      exact ⟨rfl, rfl, by simp [alLookup_insert_self]⟩
    · intro hs hn
      simp only [update_client, h1, h2]
      rw [if_neg (by simp [hs, hn])]

/-- C3 witness: updating a freshly created client with a differing
service and no notes argument succeeds and appends one `updated` entry
carrying a `service` key and no `notes` key. -/
theorem update_contract_witness :
    (update_client (create_client emptyStore "t1" "Ana" "Pintura" "").1
       "t2" "Ana" (some "Soldadura") none).2 = true ∧
    alLookup "ana.json"
      (update_client (create_client emptyStore "t1" "Ana" "Pintura" "").1
        "t2" "Ana" (some "Soldadura") none).1.files =
      some { name := "Ana", service := "Soldadura", notes := "",
             created_at := "t1", updated_at := "t2",
             history := [{ action := "created", timestamp := "t1",
                           service := some "Pintura", notes := some "" },
                         { action := "updated", timestamp := "t2",
                           service := some "Soldadura", notes := none }] } := by
  have h := (update_contract (create_client emptyStore "t1" "Ana" "Pintura" "").1
    "t2" "Ana" (some "Soldadura") none).2.2 "ana.json"
    { name := "Ana", service := "Pintura", notes := "", created_at := "t1",
      updated_at := "t1",
      history := [{ action := "created", timestamp := "t1",
                    service := some "Pintura", notes := some "" }] }
    (by decide) (by decide)
  have h2 := h.1 (by decide)
  exact ⟨h2.1, h2.2.2⟩

/-- C4: consult reports not-found when the name is unindexed or its
file is unreadable; otherwise it appends exactly one `consulted` entry
with the current timestamp, persists the record, returns the full
record (history included) with every other field unchanged, and
consulting twice appends exactly two `consulted` entries. -/
theorem consult_contract (s : Store) (now now2 name : String) :
    (alLookup name s.index = none → consult_client s now name = (s, none)) ∧
    (∀ f, alLookup name s.index = some f → alLookup f s.files = none →
       consult_client s now name = (s, none)) ∧
    (∀ f r, alLookup name s.index = some f → alLookup f s.files = some r →
       (consult_client s now name).2 =
         some { r with history :=
                  r.history ++ [{ action := "consulted", timestamp := now }] } ∧
       (consult_client s now name).1.index = s.index ∧
       alLookup f (consult_client s now name).1.files =
         some { r with history :=
                  r.history ++ [{ action := "consulted", timestamp := now }] } ∧
       (consult_client (consult_client s now name).1 now2 name).2 =
         some { r with history :=
                  r.history ++ [{ action := "consulted", timestamp := now },
                                { action := "consulted", timestamp := now2 }] }) := by
  refine ⟨?_, ?_, ?_⟩
  · intro h
    simp [consult_client, h]
  · intro f h1 h2
    simp [consult_client, h1, h2]
  · intro f r h1 h2
    refine ⟨by simp [consult_client, h1, h2], by simp [consult_client, h1, h2],
      by simp [consult_client, h1, h2, alLookup_insert_self], ?_⟩
    set r2 : Record :=
      { r with history := r.history ++ [{ action := "consulted", timestamp := now }] }
      with hr2
    have hs2 : (consult_client s now name).1 = { s with files := alInsert f r2 s.files } := by
      simp [consult_client, h1, h2, hr2]
    rw [hs2]
    simp [consult_client, h1, alLookup_insert_self, hr2, List.append_assoc]

/-- C4 witness: consulting a concrete client twice returns the record
with exactly two `consulted` entries appended. -/
theorem consult_contract_witness :
    (consult_client
      (consult_client (create_client emptyStore "t1" "Ana" "Pintura" "").1 "t2" "Ana").1
      "t3" "Ana").2 =
      some { name := "Ana", service := "Pintura", notes := "",
             created_at := "t1", updated_at := "t1",
             history := [{ action := "created", timestamp := "t1",
                           service := some "Pintura", notes := some "" },
                         { action := "consulted", timestamp := "t2" },
                         { action := "consulted", timestamp := "t3" }] } :=
  ((consult_contract (create_client emptyStore "t1" "Ana" "Pintura" "").1
      "t2" "t3" "Ana").2.2 "ana.json"
    { name := "Ana", service := "Pintura", notes := "", created_at := "t1",
      updated_at := "t1",
      history := [{ action := "created", timestamp := "t1",
                    service := some "Pintura", notes := some "" }] }
    (by decide) (by decide)).2.2.2

/-- Stability of the descending sort in `list_clients`: the sublist of
entries sharing one `created_at` value is exactly the corresponding
sublist of the input, in input order. -/
theorem insertionSort_filter_key (l : List BasicInfo) (k : String) :
    (List.insertionSort listRel l).filter (fun c => c.created_at == k) =
      l.filter (fun c => c.created_at == k) := by
  have hkeys : ∀ x ∈ l.filter (fun c => c.created_at == k), x.created_at = k :=
    fun x hx => eq_of_beq (List.mem_filter.mp hx).2
  have hpair : (l.filter fun c => c.created_at == k).Pairwise listRel :=
    List.pairwise_of_forall_mem_list fun a ha b hb => by
      show pyStrLe b.created_at a.created_at = true
      rw [hkeys a ha, hkeys b hb]
      exact charLe_refl _
  have hsub : (l.filter fun c => c.created_at == k).Sublist (List.insertionSort listRel l) :=
    List.sublist_insertionSort hpair (List.filter_sublist l)
  have h2 := List.Sublist.filter (fun c => c.created_at == k) hsub
  rw [List.filter_filter] at h2
  simp only [Bool.and_self] at h2
  have hperm : ((List.insertionSort listRel l).filter
      (fun c => c.created_at == k)).Perm (l.filter fun c => c.created_at == k) :=
    (List.perm_insertionSort listRel l).filter _
  exact (h2.eq_of_length hperm.length_eq.symm).symm

/-- C6: list returns one basic-field entry (history excluded) per
index key whose file loads, silently skipping entries whose file fails
to load, ordered by `created_at` descending with ties kept in a stable
order (the filter at each key value preserves index order); it mutates
nothing, and three clients created at increasing timestamps come back
most recent first. -/
theorem list_contract (s : Store) :
    (list_clients s).Perm
      (s.index.filterMap fun p => (alLookup p.2 s.files).map basicOf) ∧
    List.Sorted (fun a b : BasicInfo => b.created_at ≤ a.created_at) (list_clients s) ∧
    (∀ k, (list_clients s).filter (fun c => c.created_at == k) =
       (s.index.filterMap fun p => (alLookup p.2 s.files).map basicOf).filter
         (fun c => c.created_at == k)) ∧
    applyOp s .list = s ∧
    list_clients (applyOps emptyStore
        [.create "t1" "A" "sa" "na", .create "t2" "B" "sb" "nb",
         .create "t3" "C" "sc" "nc"]) =
      [⟨"C", "sc", "nc", "t3", "t3"⟩, ⟨"B", "sb", "nb", "t2", "t2"⟩,
       ⟨"A", "sa", "na", "t1", "t1"⟩] := by
  refine ⟨List.perm_insertionSort listRel _, ?_, ?_, rfl, by decide⟩
  · exact (List.sorted_insertionSort listRel _).imp fun h => (pyStrLe_iff_le _ _).mp h
  · intro k
    exact insertionSort_filter_key
      (s.index.filterMap fun p => (alLookup p.2 s.files).map basicOf) k

/-- C7: search returns exactly the entries of list for which the
lowercased query occurs contiguously in the lowercased name, service
or notes, in list's order and field shape, and mutates nothing; the
spec's concrete matching examples included. -/
theorem search_contract (s : Store) (query : String) :
    search_clients s query = (list_clients s).filter (matchesQuery query) ∧
    (∀ c, c ∈ search_clients s query ↔ c ∈ list_clients s ∧
       ((∃ u v, (strLower c.name).data = u ++ (strLower query).data ++ v) ∨
        (∃ u v, (strLower c.service).data = u ++ (strLower query).data ++ v) ∨
        (∃ u v, (strLower c.notes).data = u ++ (strLower query).data ++ v))) ∧
    (search_clients s query).Sublist (list_clients s) ∧
    applyOp s (.search query) = s ∧
    search_clients (applyOp emptyStore
        (.create "t1" "Juan Perez" "Soldadura" "premium")) "SOLD" =
      list_clients (applyOp emptyStore
        (.create "t1" "Juan Perez" "Soldadura" "premium")) ∧
    search_clients (applyOp emptyStore
        (.create "t1" "Juan Perez" "Soldadura" "premium")) "juan" =
      list_clients (applyOp emptyStore
        (.create "t1" "Juan Perez" "Soldadura" "premium")) ∧
    search_clients (applyOp emptyStore
        (.create "t1" "Juan Perez" "Soldadura" "premium")) "PREMIUM" =
      list_clients (applyOp emptyStore
        (.create "t1" "Juan Perez" "Soldadura" "premium")) ∧
    search_clients (applyOp emptyStore
        (.create "t1" "Juan Perez" "Soldadura" "premium")) "zzz" = [] := by
  refine ⟨rfl, ?_, List.filter_sublist _, rfl, by decide, by decide, by decide, by decide⟩
  intro c
  simp only [search_clients, List.mem_filter, matchesQuery, Bool.or_eq_true,
    strContains_iff]
  rw [or_assoc]

/-- C5: delete reports not-found exactly when the name is unindexed,
changing nothing in that case; otherwise it succeeds, removes the
backing file (removal of an already-missing file is not an error: the
file map is erased at the filename either way), removes the index
entry, decreases the count by exactly one, and subsequent consult and
update on that name report not-found. -/
theorem delete_contract (s : Store) (name now2 now3 : String)
    (service notes : Option String) :
    (alLookup name s.index = none → delete_client s name = (s, false)) ∧
    ((delete_client s name).2 = false → alLookup name s.index = none) ∧
    (∀ f, alLookup name s.index = some f →
       (delete_client s name).2 = true ∧
       (delete_client s name).1.index = alErase name s.index ∧
       (delete_client s name).1.files = alErase f s.files ∧
       get_client_count (delete_client s name).1 + 1 = get_client_count s ∧
       ((s.index.map Prod.fst).Nodup →
          (consult_client (delete_client s name).1 now2 name).2 = none ∧
          (update_client (delete_client s name).1 now3 name service notes).2 = false)) := by
  refine ⟨?_, ?_, ?_⟩
  · intro h
    simp [delete_client, h]
  · intro h
    cases h1 : alLookup name s.index with
    | none => rfl
    | some f => simp [delete_client, h1] at h
  · intro f h1
    refine ⟨by simp [delete_client, h1], by simp [delete_client, h1],
      by simp [delete_client, h1], ?_, ?_⟩
    · simpa [delete_client, h1, get_client_count] using length_alErase_of_some h1
    · intro hn
      have hgone : alLookup name (delete_client s name).1.index = none := by
        simp only [delete_client, h1]
        exact alLookup_erase_self hn
      exact ⟨by simp [consult_client, hgone], by simp [update_client, hgone]⟩

/-- C5 witness: deleting a concrete client succeeds, empties the store
and makes subsequent consult and update report not-found. -/
theorem delete_contract_witness :
    (delete_client (create_client emptyStore "t1" "Ana" "Pintura" "").1 "Ana").2 = true ∧
    get_client_count (delete_client (create_client emptyStore "t1" "Ana" "Pintura" "").1
      "Ana").1 + 1 =
      get_client_count (create_client emptyStore "t1" "Ana" "Pintura" "").1 ∧
    (consult_client (delete_client (create_client emptyStore "t1" "Ana" "Pintura" "").1
      "Ana").1 "t2" "Ana").2 = none := by
  have h := (delete_contract (create_client emptyStore "t1" "Ana" "Pintura" "").1
    "Ana" "t2" "t3" none none).2.2 "ana.json" (by decide)
  exact ⟨h.1, h.2.2.2.1, (h.2.2.2.2 (by decide)).1⟩

/-- C10: whenever an operation reports failure (create "already
exists", update/delete not-found, consult not-found, including the
unreadable-file cases), the store is left exactly as it was. -/
theorem failure_atomicity (s : Store) (now name service notes : String)
    (service2 notes2 : Option String) :
    ((create_client s now name service notes).2 = false →
       (create_client s now name service notes).1 = s) ∧
    ((update_client s now name service2 notes2).2 = false →
       (update_client s now name service2 notes2).1 = s) ∧
    ((consult_client s now name).2 = none → (consult_client s now name).1 = s) ∧
    ((delete_client s name).2 = false → (delete_client s name).1 = s) := by
  refine ⟨?_, ?_, ?_, ?_⟩
  · by_cases h : (alLookup name s.index).isSome = true <;>
      simp [create_client, h]
  · cases h1 : alLookup name s.index with
    | none => simp [update_client, h1]
    | some f =>
      cases h2 : alLookup f s.files with
      | none => simp [update_client, h1, h2]
      | some r =>
        simp only [update_client, h1, h2]
        split <;> simp
  · cases h1 : alLookup name s.index with
    | none => simp [consult_client, h1]
    | some f =>
      cases h2 : alLookup f s.files with
      | none => simp [consult_client, h1, h2]
      | some r => simp [consult_client, h1, h2]
  · cases h1 : alLookup name s.index with
    | none => simp [delete_client, h1]
    | some f => simp [delete_client, h1]

/-- C10 witness: failing calls on concrete stores leave them unchanged. -/
theorem failure_atomicity_witness :
    (update_client emptyStore "t1" "Ana" (some "X") none).1 = emptyStore ∧
    (consult_client emptyStore "t1" "Ana").1 = emptyStore ∧
    (delete_client emptyStore "Ana").1 = emptyStore :=
  ⟨(failure_atomicity emptyStore "t1" "Ana" "s" "n" (some "X") none).2.1 (by decide),
   (failure_atomicity emptyStore "t1" "Ana" "s" "n" (some "X") none).2.2.1 (by decide),
   (failure_atomicity emptyStore "t1" "Ana" "s" "n" (some "X") none).2.2.2 (by decide)⟩

/-! ### Invariant preservation machinery for C1 and C8 -/

/-- Resulting state of a create on an unindexed name. -/
theorem create_state_of_none {s : Store} {now name service notes : String}
    (h : alLookup name s.index = none) :
    (create_client s now name service notes).1 =
      { index := s.index ++ [(name, generateFilename name)],
        files := alInsert (generateFilename name)
          { name := name, service := service, notes := notes, created_at := now,
            updated_at := now,
            history := [{ action := "created", timestamp := now,
                          service := some service, notes := some notes }] }
          s.files } := by
  simp [create_client, h, alInsert_of_none h]

/-- Overwriting one record file with a record of the same `name`
preserves index/record consistency. -/
theorem consistent_overwrite {s : Store} {f : String} {cd cd2 : Record}
    (hcons : Consistent s) (h2 : alLookup f s.files = some cd)
    (hname : cd2.name = cd.name) :
    Consistent { s with files := alInsert f cd2 s.files } := by
  intro p hp
  by_cases hpf : p.2 = f
  · have hold := hcons p hp
    rw [hpf, h2] at hold
    simp only [Option.map_some'] at hold
    simp only [hpf, alLookup_insert_self, Option.map_some', hname]
    exact hold
  · have hne := alLookup_insert_ne (show f ≠ p.2 from fun he => hpf he.symm) cd2 s.files
    simp only [hne]
    exact hcons p hp

/-- One collision-free operation preserves the store invariant. -/
theorem storeInv_step {s : Store} {op : Op} (hinv : StoreInv s)
    (hcf : CollFree s op) : StoreInv (applyOp s op) := by
  obtain ⟨hn1, hn2, hgf, hcons⟩ := hinv
  cases op with
  | create now name service notes =>
    cases hlook : alLookup name s.index with
    | some f =>
      have hid : applyOp s (.create now name service notes) = s := by
        simp [applyOp, create_client, hlook]
      rw [hid]
      exact ⟨hn1, hn2, hgf, hcons⟩
    | none =>
      have hfree : ∀ p ∈ s.index, p.2 ≠ generateFilename name := by
        rcases hcf with h | h
        · rw [hlook] at h
          simp at h
        · exact h
      have hkey : name ∉ s.index.map Prod.fst := by
        intro hmem
        obtain ⟨p, hp, hpe⟩ := List.mem_map.mp hmem
        exact alLookup_eq_none_iff.mp hlook p hp hpe
      have hfn : generateFilename name ∉ s.index.map Prod.snd := by
        intro hmem
        obtain ⟨p, hp, hpe⟩ := List.mem_map.mp hmem
        exact hfree p hp hpe
      show StoreInv (create_client s now name service notes).1
      rw [create_state_of_none hlook]
      refine ⟨?_, ?_, ?_, ?_⟩
      · rw [List.map_append]
        exact List.Nodup.append hn1 (List.nodup_singleton _)
          (fun x hx hx2 => by
            simp only [List.map_cons, List.map_nil, List.mem_singleton] at hx2
            exact hkey (hx2 ▸ hx))
      · rw [List.map_append]
        exact List.Nodup.append hn2 (List.nodup_singleton _)
          (fun x hx hx2 => by
            simp only [List.map_cons, List.map_nil, List.mem_singleton] at hx2
            exact hfn (hx2 ▸ hx))
      · intro p hp
        rcases List.mem_append.mp hp with hold | hnew
        · exact hgf p hold
        · simp only [List.mem_singleton] at hnew
          rw [hnew]
      · intro p hp
        rcases List.mem_append.mp hp with hold | hnew
        · rw [alLookup_insert_ne
            (show generateFilename name ≠ p.2 from fun he => hfree p hold he.symm)]
          exact hcons p hold
        · simp only [List.mem_singleton] at hnew
          rw [hnew]
          simp [alLookup_insert_self]
  | update now name service notes =>
    show StoreInv (update_client s now name service notes).1
    cases h1 : alLookup name s.index with
    | none =>
      simp only [update_client, h1]
      exact ⟨hn1, hn2, hgf, hcons⟩
    | some f =>
      cases h2 : alLookup f s.files with
      | none =>
        simp only [update_client, h1, h2]
        exact ⟨hn1, hn2, hgf, hcons⟩
      | some cd =>
        simp only [update_client, h1, h2]
        split
        · exact ⟨hn1, hn2, hgf, consistent_overwrite hcons h2 rfl⟩
        · exact ⟨hn1, hn2, hgf, hcons⟩
  | consult now name =>
    show StoreInv (consult_client s now name).1
    cases h1 : alLookup name s.index with
    | none =>
      simp only [consult_client, h1]
      exact ⟨hn1, hn2, hgf, hcons⟩
    | some f =>
      cases h2 : alLookup f s.files with
      | none =>
        simp only [consult_client, h1, h2]
        exact ⟨hn1, hn2, hgf, hcons⟩
      | some cd =>
        simp only [consult_client, h1, h2]
        exact ⟨hn1, hn2, hgf, consistent_overwrite hcons h2 rfl⟩
  | delete name =>
    show StoreInv (delete_client s name).1
    cases h1 : alLookup name s.index with
    | none =>
      simp only [delete_client, h1]
      exact ⟨hn1, hn2, hgf, hcons⟩
    | some f =>
      simp only [delete_client, h1]
      refine ⟨((alErase_sublist name s.index).map Prod.fst).nodup hn1,
        ((alErase_sublist name s.index).map Prod.snd).nodup hn2,
        fun p hp => hgf p (mem_alErase_of_mem hp), ?_⟩
      intro p hp
      have hpmem := mem_alErase_of_mem hp
      have hpf : p.2 ≠ f := by
        intro he
        have hpe : p = (name, f) :=
          snd_injective hn2 hpmem (alLookup_mem h1) he
        rw [hpe] at hp
        exact not_mem_alErase_self hn1 hp
      rw [alLookup_erase_ne (fun he => hpf he.symm)]
      exact hcons p hpmem
  | list => exact ⟨hn1, hn2, hgf, hcons⟩
  | search q => exact ⟨hn1, hn2, hgf, hcons⟩
  | count => exact ⟨hn1, hn2, hgf, hcons⟩

/-- C1 counterexample: starting from the consistent empty store, two
creates whose distinct names derive the same filename leave an index
key pointing at a record whose stored `name` differs from the key, so
the stated invariant fails. -/
theorem index_consistency_counterexample :
    Consistent emptyStore ∧
    ¬ Consistent (applyOps emptyStore
      [.create "t1" "Juan Perez" "Soldadura" "", .create "t2" "juan perez" "Pintura" ""]) ∧
    alLookup "Juan Perez" (applyOps emptyStore
      [.create "t1" "Juan Perez" "Soldadura" "", .create "t2" "juan perez" "Pintura" ""]).index
      = some "juan_perez.json" ∧
    (alLookup "juan_perez.json" (applyOps emptyStore
      [.create "t1" "Juan Perez" "Soldadura" "", .create "t2" "juan perez" "Pintura" ""]).files).map
        Record.name = some "juan perez" := by
  refine ⟨by decide, by decide, by decide, by decide⟩

/-- C1 (amended): starting from a store satisfying the index discipline
(distinct keys, filenames derived from keys, pairwise-distinct
filenames, consistency), and provided every create in the sequence is
collision-free (its name already indexed, or its derived filename not
used by any differently-named entry), after the sequence every key in
the index maps to an existing, readable record file whose stored
`name` equals the index key; instantiating with each prefix of a trace
(collision-freedom is inherited by prefixes) gives the property after
each operation. -/
theorem index_record_consistency (s : Store) (ops : List Op)
    (hinv : StoreInv s) (htr : TraceOK s ops) :
    StoreInv (applyOps s ops) ∧ Consistent (applyOps s ops) := by
  induction ops generalizing s with
  | nil => exact ⟨hinv, hinv.2.2.2⟩
  | cons op rest ih => exact ih _ (storeInv_step hinv htr.1) htr.2

/-- C1 witness: a concrete collision-free trace from the empty store
preserves the invariant. -/
theorem index_record_consistency_witness :
    StoreInv (applyOps emptyStore
      [.create "t1" "Ana" "Pintura" "", .update "t2" "Ana" (some "X") none,
       .consult "t3" "Ana", .create "t4" "Luis" "Corte" "vip", .delete "Ana"]) ∧
    Consistent (applyOps emptyStore
      [.create "t1" "Ana" "Pintura" "", .update "t2" "Ana" (some "X") none,
       .consult "t3" "Ana", .create "t4" "Luis" "Corte" "vip", .delete "Ana"]) :=
  index_record_consistency emptyStore _ (by decide) (by decide)

/-- C8 counterexample: a create whose derived filename collides with an
existing record file replaces that file's record wholesale, so the
prior history (one `created` entry for the first service) is not a
prefix of the new history (one `created` entry for the second). -/
theorem history_append_only_counterexample :
    (alLookup "juan_perez.json" (applyOps emptyStore
      [.create "t1" "Juan Perez" "Soldadura" "x"]).files).map Record.history =
      some [{ action := "created", timestamp := "t1",
              service := some "Soldadura", notes := some "x" }] ∧
    (alLookup "juan_perez.json" (applyOps emptyStore
      [.create "t1" "Juan Perez" "Soldadura" "x",
       .create "t2" "juan perez" "Pintura" "y"]).files).map Record.history =
      some [{ action := "created", timestamp := "t2",
              service := some "Pintura", notes := some "y" }] ∧
    ∀ t : List HistoryEntry,
      [({ action := "created", timestamp := "t2", service := some "Pintura",
          notes := some "y" } : HistoryEntry)] ≠
        [({ action := "created", timestamp := "t1", service := some "Soldadura",
            notes := some "x" } : HistoryEntry)] ++ t := by
  refine ⟨by decide, by decide, ?_⟩
  intro t h
  rw [List.singleton_append] at h
  injection h with h1 h2
  exact absurd h1 (by decide)

/-- C8 (amended): provided no create overwrites an existing record file
(its name already indexed, or no file present under its derived
filename) and record-file paths are distinct, every record file present
both before and after an operation has its prior history as a prefix of
its new history, and a succeeding create writes a history of exactly
one `created` entry. -/
theorem history_append_only (s : Store) (op : Op)
    (hnd : (s.files.map Prod.fst).Nodup) (hfr : CreateFresh s op) :
    (∀ f r1 r2, alLookup f s.files = some r1 →
       alLookup f (applyOp s op).files = some r2 →
       ∃ t, r2.history = r1.history ++ t) ∧
    (∀ now name service notes, alLookup name s.index = none →
       (alLookup (generateFilename name)
          (applyOp s (.create now name service notes)).files).map Record.history =
         some [{ action := "created", timestamp := now,
                 service := some service, notes := some notes }]) := by
  constructor
  · intro f r1 r2 hr1 hr2
    cases op with
    | create now name service notes =>
      cases hlook : alLookup name s.index with
      | some g =>
        have hid : applyOp s (.create now name service notes) = s := by
          simp [applyOp, create_client, hlook]
        rw [hid] at hr2
        rw [hr1] at hr2
        exact ⟨[], by rw [← Option.some.inj hr2]; simp⟩
      | none =>
        have hfree : alLookup (generateFilename name) s.files = none := by
          rcases hfr with h | h
          · rw [hlook] at h
            simp at h
          · exact h
        by_cases hff : f = generateFilename name
        · rw [hff, hfree] at hr1
          cases hr1
        · have hst : applyOp s (.create now name service notes) =
              (create_client s now name service notes).1 := rfl
          rw [hst, create_state_of_none hlook] at hr2
          simp only [alLookup_insert_ne (fun he => hff he.symm)] at hr2
          rw [hr1] at hr2
          exact ⟨[], by rw [← Option.some.inj hr2]; simp⟩
    | update now name service notes =>
      show ∃ t, r2.history = r1.history ++ t
      cases h1 : alLookup name s.index with
      | none =>
        simp only [applyOp, update_client, h1] at hr2
        rw [hr1] at hr2
        exact ⟨[], by rw [← Option.some.inj hr2]; simp⟩
      | some g =>
        cases h2 : alLookup g s.files with
        | none =>
          simp only [applyOp, update_client, h1, h2] at hr2
          rw [hr1] at hr2
          exact ⟨[], by rw [← Option.some.inj hr2]; simp⟩
        | some cd =>
          simp only [applyOp, update_client, h1, h2] at hr2
          revert hr2
          split
          · intro hr2
            by_cases hfg : f = g
            · rw [hfg, alLookup_insert_self] at hr2
              rw [hfg, h2] at hr1
              have he1 : r1 = cd := Option.some.inj hr1.symm
              have he2 := Option.some.inj hr2
              refine ⟨[{ action := "updated", timestamp := now,
                         service := service, notes := notes }], ?_⟩
              rw [← he2, he1]
            · rw [alLookup_insert_ne (fun he => hfg he.symm)] at hr2
              rw [hr1] at hr2
              exact ⟨[], by rw [← Option.some.inj hr2]; simp⟩
          · intro hr2
            rw [hr1] at hr2
            exact ⟨[], by rw [← Option.some.inj hr2]; simp⟩
    | consult now name =>
      show ∃ t, r2.history = r1.history ++ t
      cases h1 : alLookup name s.index with
      | none =>
        simp only [applyOp, consult_client, h1] at hr2
        rw [hr1] at hr2
        exact ⟨[], by rw [← Option.some.inj hr2]; simp⟩
      | some g =>
        cases h2 : alLookup g s.files with
        | none =>
          simp only [applyOp, consult_client, h1, h2] at hr2
          rw [hr1] at hr2
          exact ⟨[], by rw [← Option.some.inj hr2]; simp⟩
        | some cd =>
          simp only [applyOp, consult_client, h1, h2] at hr2
          by_cases hfg : f = g
          · rw [hfg, alLookup_insert_self] at hr2
            rw [hfg, h2] at hr1
            have he1 : r1 = cd := Option.some.inj hr1.symm
            have he2 := Option.some.inj hr2
            refine ⟨[{ action := "consulted", timestamp := now }], ?_⟩
            rw [← he2, he1]
          · rw [alLookup_insert_ne (fun he => hfg he.symm)] at hr2
            rw [hr1] at hr2
            exact ⟨[], by rw [← Option.some.inj hr2]; simp⟩
    | delete name =>
      show ∃ t, r2.history = r1.history ++ t
      cases h1 : alLookup name s.index with
      | none =>
        simp only [applyOp, delete_client, h1] at hr2
        rw [hr1] at hr2
        exact ⟨[], by rw [← Option.some.inj hr2]; simp⟩
      | some g =>
        simp only [applyOp, delete_client, h1] at hr2
        by_cases hfg : f = g
        · rw [hfg, alLookup_erase_self hnd] at hr2
          cases hr2
        · rw [alLookup_erase_ne (fun he => hfg he.symm)] at hr2
          rw [hr1] at hr2
          exact ⟨[], by rw [← Option.some.inj hr2]; simp⟩
    | list =>
      simp only [applyOp] at hr2
      rw [hr1] at hr2
      exact ⟨[], by rw [← Option.some.inj hr2]; simp⟩
    | search q =>
      simp only [applyOp] at hr2
      rw [hr1] at hr2
      exact ⟨[], by rw [← Option.some.inj hr2]; simp⟩
    | count =>
      simp only [applyOp] at hr2
      rw [hr1] at hr2
      exact ⟨[], by rw [← Option.some.inj hr2]; simp⟩
  · intro now name service notes hns
    show (alLookup (generateFilename name)
      (create_client s now name service notes).1.files).map Record.history = _
    rw [create_state_of_none hns]
    simp [alLookup_insert_self]

/-- C8 witness: on a concrete store, an update preserves the old
history as a prefix and a fresh create starts the history with one
`created` entry. -/
theorem history_append_only_witness :
    (∃ t, ({ name := "Ana", service := "X", notes := "", created_at := "t1",
             updated_at := "t2",
             history := [{ action := "created", timestamp := "t1",
                           service := some "Pintura", notes := some "" },
                         { action := "updated", timestamp := "t2",
                           service := some "X", notes := none }] } : Record).history =
       ({ name := "Ana", service := "Pintura", notes := "", created_at := "t1",
          updated_at := "t1",
          history := [{ action := "created", timestamp := "t1",
                        service := some "Pintura", notes := some "" }] } : Record).history ++ t) ∧
    (alLookup "ana.json"
       (applyOp emptyStore (.create "t1" "Ana" "Pintura" "")).files).map Record.history =
      some [{ action := "created", timestamp := "t1",
              service := some "Pintura", notes := some "" }] := by
  constructor
  · exact (history_append_only (applyOp emptyStore (.create "t1" "Ana" "Pintura" ""))
      (.update "t2" "Ana" (some "X") none) (by decide) (by decide)).1
      "ana.json" _ _ (by decide) (by decide)
  · exact (history_append_only emptyStore (.create "t1" "Ana" "Pintura" "")
      (by decide) (by decide)).2 "t1" "Ana" "Pintura" "" (by decide)

end Axanet
